import Mathlib

/-!
Verification of the reconciliation and batching engine of a two-marketplace
inventory synchronizer (files `seller.py` and `market.py`).

The development shallowly embeds the data-transformation core:

* `pyInt` models the Python builtin `int(...)` applied to an ASCII string
  (optional surrounding whitespace, optional sign, decimal digits with
  single underscores allowed between digits);
* `price_conversion` models `re.sub("[^0-9]", "", price.split(".")[0])`;
* `classify` models the inline quantity classification of `create_stocks`;
* `Seller.create_stocks` / `Seller.create_prices` model the Ozon-side
  reconciliation (`seller.py`), with the in-place mutation of `offer_ids`
  made explicit by returning the remaining identifier list;
* `Market.create_stocks` / `Market.create_prices` model the
  Yandex.Market-side reconciliation (`market.py`); the single
  `datetime.datetime.utcnow()` call captured before the feed walk is
  modelled by the `date` argument;
* `divide` models the batching generator `divide(lst, n)` built on
  `range(0, len(lst), n)` (modelled by `pyRange`).

Fallible operations return `Except PyError`; `PyError.valueError` stands
for the `ValueError` raised by `int(...)` on unparseable input and by
`range` on a zero step.
-/

/-- Runtime errors the embedded fragment can raise. -/
inductive PyError where
  | valueError
deriving DecidableEq, Repr

/-- ASCII whitespace accepted by Python around an integer literal. -/
def pyWhitespace (c : Char) : Bool :=
  c = ' ' || c = '\t' || c = '\n' || c = '\r' || c = '\x0b' || c = '\x0c'

/-- Strip leading and trailing whitespace from a character list. -/
def pyStrip (cs : List Char) : List Char :=
  ((cs.dropWhile pyWhitespace).reverse.dropWhile pyWhitespace).reverse

/-- Accumulate the value of a digit run, allowing single underscores
between digits, as Python integer literals do. -/
def pyDigitsGo (acc : Nat) : List Char → Option Nat
  | [] => some acc
  | c :: cs =>
    if c = '_' then
      match cs with
      | [] => none
      | c2 :: cs2 =>
        if c2.isDigit then pyDigitsGo (acc * 10 + (c2.toNat - 48)) cs2 else none
    else
      if c.isDigit then pyDigitsGo (acc * 10 + (c.toNat - 48)) cs else none

/-- Parse a nonempty digit run (single underscores allowed between digits). -/
def pyDigits : List Char → Option Nat
  | [] => none
  | c :: cs => if c.isDigit then pyDigitsGo (c.toNat - 48) cs else none

/-- Model of the Python builtin `int(...)` on an ASCII string, as a list of
characters: strip whitespace, read an optional sign, then a digit run. -/
def pyIntList (cs : List Char) : Option Int :=
  match pyStrip cs with
  | [] => none
  | c :: rest =>
    if c = '+' then (pyDigits rest).map Int.ofNat
    else if c = '-' then (pyDigits rest).map (fun n => -(n : Int))
    else (pyDigits (c :: rest)).map Int.ofNat

/-- Model of the Python builtin `int(...)` on an ASCII string. -/
def pyInt (s : String) : Option Int := pyIntList s.toList

/-- Model of `price.split(".")[0]`: the prefix before the first dot
(the whole string when no dot occurs). -/
def pySplitDotHead (s : String) : String :=
  String.mk (s.toList.takeWhile (fun c => c ≠ '.'))

/-- Model of `re.sub("[^0-9]", "", s)`: keep exactly the ASCII digits. -/
def reSubKeepDigits (s : String) : String :=
  String.mk (s.toList.filter Char.isDigit)

/-- `price_conversion` from `seller.py`:
`re.sub("[^0-9]", "", price.split(".")[0])`. -/
def price_conversion (price : String) : String :=
  reSubKeepDigits (pySplitDotHead price)

/-- The integer the spec's price normalizer produces: the converted digit
string read back by `int(...)`, as `market.py` does. -/
def normalizePrice (price : String) : Option Int :=
  pyInt (price_conversion price)

/-- Quantity classification inlined in both `create_stocks` functions:
`">10"` maps to 100, `"1"` maps to 0, anything else goes through
`int(...)`, whose failure is a `ValueError`. -/
def classify (q : String) : Except PyError Int :=
  if q = ">10" then .ok 100
  else if q = "1" then .ok 0
  else
    match pyInt q with
    | some n => .ok n
    | none => .error .valueError

/-- One supplier feed record, with the fields the engine reads:
`code` is `str(watch.get("Код"))`, `quantity` is the raw value of
`watch.get("Количество")`, `price` is `watch.get("Цена")`. -/
structure Watch where
  code : String
  quantity : String
  price : String
deriving DecidableEq, Repr

/-- Model of `range(start, stop, step)` for a nonnegative step; a zero
step is rejected by the caller (`divide`) before this is reached. -/
def pyRange (start stop step : Nat) : List Nat :=
  if h : step = 0 then []
  else
    if h2 : start < stop then
      start :: pyRange (start + step) stop step
    else []
termination_by stop - start
decreasing_by
  simp_wf
  omega

/-- `divide` from `seller.py`: `for i in range(0, len(lst), n): yield
lst[i : i + n]`, collected into a list as every caller does with
`list(divide(...))`.  A zero step makes `range` raise `ValueError`; a
negative step makes `range(0, len(lst), n)` empty (the stop value
`len(lst)` is never below the start value 0), so nothing is yielded. -/
def divide (lst : List α) (n : Int) : Except PyError (List (List α)) :=
  if n = 0 then .error .valueError
  else if n < 0 then .ok []
  else .ok ((pyRange 0 lst.length n.toNat).map (fun i => (lst.drop i).take n.toNat))

namespace Seller

/-- One Ozon stock update: `{"offer_id": ..., "stock": ...}`. -/
structure Stock where
  offer_id : String
  stock : Int
deriving DecidableEq, Repr

/-- One Ozon price update, with the constant fields `seller.py` emits. -/
structure Price where
  auto_action_enabled : String
  currency_code : String
  offer_id : String
  old_price : String
  price : String
deriving DecidableEq, Repr

/-- The feed walk of `create_stocks` in `seller.py`: each record whose
code is in `offer_ids` is classified and emitted, and its code is removed
from `offer_ids` (Python `list.remove` drops the first occurrence, as
`List.erase` does).  Returns the matched updates in feed order and the
remaining identifier list. -/
def create_stocksGo : List Watch → List String → Except PyError (List Stock × List String)
  | [], offer_ids => .ok ([], offer_ids)
  | w :: ws, offer_ids =>
    if w.code ∈ offer_ids then
      match classify w.quantity with
      | .error e => .error e
      | .ok st =>
        match create_stocksGo ws (offer_ids.erase w.code) with
        | .error e => .error e
        | .ok (rest, rem) => .ok ({ offer_id := w.code, stock := st } :: rest, rem)
    else create_stocksGo ws offer_ids

/-- `create_stocks` from `seller.py`.  The function mutates `offer_ids`
in place; the embedding returns the list of stock updates together with
the final contents of `offer_ids` (the identifiers never matched, each
then also appended with stock 0). -/
def create_stocks (watch_remnants : List Watch) (offer_ids : List String) :
    Except PyError (List Stock × List String) :=
  match create_stocksGo watch_remnants offer_ids with
  | .error e => .error e
  | .ok (matched, rem) =>
    .ok (matched ++ rem.map (fun offer_id => { offer_id := offer_id, stock := 0 }), rem)

/-- `create_prices` from `seller.py`: one price record per feed record
whose code is in `offer_ids`; nothing is removed from `offer_ids`. -/
def create_prices : List Watch → List String → List Price
  | [], _ => []
  | w :: ws, offer_ids =>
    if w.code ∈ offer_ids then
      { auto_action_enabled := "UNKNOWN", currency_code := "RUB",
        offer_id := w.code, old_price := "0",
        price := price_conversion w.price } :: create_prices ws offer_ids
    else create_prices ws offer_ids

end Seller

namespace Market

/-- The single element of a Yandex.Market stock update's `items` list. -/
structure StockItem where
  count : Int
  type : String
  updatedAt : String
deriving DecidableEq, Repr

/-- One Yandex.Market stock update. -/
structure Stock where
  sku : String
  warehouseId : String
  items : List StockItem
deriving DecidableEq, Repr

/-- The `price` payload of a Yandex.Market price update. -/
structure PriceBody where
  value : Int
  currencyId : String
deriving DecidableEq, Repr

/-- One Yandex.Market price update. -/
structure Price where
  id : String
  price : PriceBody
deriving DecidableEq, Repr

/-- The feed walk of `create_stocks` in `market.py`; `date` is the string
`str(datetime.datetime.utcnow().replace(microsecond=0).isoformat() + "Z")`
captured once before the walk. -/
def create_stocksGo (warehouse_id date : String) :
    List Watch → List String → Except PyError (List Stock × List String)
  | [], offer_ids => .ok ([], offer_ids)
  | w :: ws, offer_ids =>
    if w.code ∈ offer_ids then
      match classify w.quantity with
      | .error e => .error e
      | .ok st =>
        match create_stocksGo warehouse_id date ws (offer_ids.erase w.code) with
        | .error e => .error e
        | .ok (rest, rem) =>
          .ok ({ sku := w.code, warehouseId := warehouse_id,
                 items := [{ count := st, type := "FIT", updatedAt := date }] } :: rest, rem)
    else create_stocksGo warehouse_id date ws offer_ids

/-- `create_stocks` from `market.py`: the feed walk, then a zero-count
update for every identifier still in `offer_ids`, all sharing `date`. -/
def create_stocks (date : String) (watch_remnants : List Watch)
    (offer_ids : List String) (warehouse_id : String) :
    Except PyError (List Stock × List String) :=
  match create_stocksGo warehouse_id date watch_remnants offer_ids with
  | .error e => .error e
  | .ok (matched, rem) =>
    .ok (matched ++ rem.map (fun offer_id =>
      { sku := offer_id, warehouseId := warehouse_id,
        items := [{ count := 0, type := "FIT", updatedAt := date }] }), rem)

/-- `create_prices` from `market.py`: one price record per feed record
whose code is in `offer_ids`, the price being
`int(price_conversion(watch.get("Цена")))`; the `int(...)` call raises
`ValueError` when the converted string is not a valid integer literal. -/
def create_prices : List Watch → List String → Except PyError (List Price)
  | [], _ => .ok []
  | w :: ws, offer_ids =>
    if w.code ∈ offer_ids then
      match pyInt (price_conversion w.price) with
      | none => .error .valueError
      | some v =>
        match create_prices ws offer_ids with
        | .error e => .error e
        | .ok rest => .ok ({ id := w.code, price := { value := v, currencyId := "RUR" } } :: rest)
    else create_prices ws offer_ids

end Market

/-! Helper lemmas about the `int(...)` model on digit-only strings. -/

theorem digit_not_whitespace (c : Char) (h : c.isDigit = true) : pyWhitespace c = false := by
  cases hw : pyWhitespace c
  · rfl
  · exfalso
    simp only [pyWhitespace, Bool.or_eq_true, decide_eq_true_eq] at hw
    rcases hw with ((((h1 | h1) | h1) | h1) | h1) | h1 <;> subst h1 <;>
      exact absurd h (by decide)

theorem dropWhile_whitespace_of_digits (cs : List Char) (h : ∀ c ∈ cs, c.isDigit) :
    cs.dropWhile pyWhitespace = cs := by
  cases cs with
  | nil => rfl
  | cons c cs =>
    rw [List.dropWhile_cons, digit_not_whitespace c (h c (by simp))]
    simp

theorem pyStrip_of_digits (cs : List Char) (h : ∀ c ∈ cs, c.isDigit) : pyStrip cs = cs := by
  unfold pyStrip
  rw [dropWhile_whitespace_of_digits cs h,
    dropWhile_whitespace_of_digits cs.reverse
      (fun c hc => h c (List.mem_reverse.mp hc)),
    List.reverse_reverse]

theorem pyDigitsGo_of_digits (cs : List Char) (h : ∀ c ∈ cs, c.isDigit) :
    ∀ acc, ∃ n, pyDigitsGo acc cs = some n := by
  induction cs with
  | nil => exact fun acc => ⟨acc, rfl⟩
  | cons c cs ih =>
    intro acc
    have hc : c.isDigit = true := h c (by simp)
    have hcu : c ≠ '_' := by
      intro he
      subst he
      exact absurd hc (by decide)
    unfold pyDigitsGo
    rw [if_neg hcu, if_pos hc]
    exact ih (fun d hd => h d (by simp [hd])) _

theorem pyDigits_of_digits (cs : List Char) (hne : cs ≠ []) (h : ∀ c ∈ cs, c.isDigit) :
    ∃ n, pyDigits cs = some n := by
  cases cs with
  | nil => exact absurd rfl hne
  | cons c cs =>
    simp only [pyDigits, if_pos (h c (by simp))]
    exact pyDigitsGo_of_digits cs (fun d hd => h d (by simp [hd])) _

theorem pyIntList_of_digits (cs : List Char) (h : ∀ c ∈ cs, c.isDigit) :
    pyIntList cs = (pyDigits cs).map Int.ofNat := by
  unfold pyIntList
  rw [pyStrip_of_digits cs h]
  cases cs with
  | nil => rfl
  | cons c cs =>
    have hc : c.isDigit = true := h c (by simp)
    have h1 : c ≠ '+' := by
      intro he
      subst he
      exact absurd hc (by decide)
    have h2 : c ≠ '-' := by
      intro he
      subst he
      exact absurd hc (by decide)
    simp only [if_neg h1, if_neg h2]

theorem pyInt_of_digits (s : String) (h : ∀ c ∈ s.toList, c.isDigit) :
    pyInt s = (pyDigits s.toList).map Int.ofNat :=
  pyIntList_of_digits s.toList h

theorem pyInt_of_digits_nonneg (s : String) (h : ∀ c ∈ s.toList, c.isDigit)
    (v : Int) (hv : pyInt s = some v) : 0 ≤ v := by
  rw [pyInt_of_digits s h] at hv
  cases hd : pyDigits s.toList with
  | none => rw [hd] at hv; simp at hv
  | some n =>
    rw [hd] at hv
    simp only [Option.map_some'] at hv
    rw [← Option.some_inj.mp hv]
    exact Int.natCast_nonneg n

theorem pyInt_of_digits_some (s : String) (h : ∀ c ∈ s.toList, c.isDigit)
    (hne : s.toList ≠ []) : ∃ v, pyInt s = some v := by
  rw [pyInt_of_digits s h]
  obtain ⟨n, hn⟩ := pyDigits_of_digits s.toList hne h
  exact ⟨Int.ofNat n, by rw [hn]; rfl⟩

theorem price_conversion_digits (p : String) :
    ∀ c ∈ (price_conversion p).toList, c.isDigit := by
  intro c hc
  exact (List.mem_filter.mp hc).2

theorem string_eq_empty_iff (s : String) : s = "" ↔ s.toList = [] := by
  constructor
  · intro h
    rw [h]
    rfl
  · intro h
    apply String.ext
    exact h

/-! Helper lemmas about erasing from a duplicate-free identifier list. -/

theorem nodup_erase_eq_filter (c : String) (ids : List String) (h : ids.Nodup) :
    ids.erase c = ids.filter (fun i => i ≠ c) := by
  induction ids with
  | nil => rfl
  | cons i t ih =>
    rcases List.nodup_cons.mp h with ⟨hit, ht⟩
    by_cases hic : i = c
    · subst hic
      rw [List.erase_cons_head, List.filter_cons, if_neg (by simp)]
      have hfa : ∀ a ∈ t, (decide (a ≠ i)) = true := by
        intro a ha
        simp only [decide_eq_true_eq, ne_eq]
        exact fun he => hit (he ▸ ha)
      exact (List.filter_eq_self.mpr hfa).symm
    · rw [List.erase_cons_tail (by simp [hic]), List.filter_cons, if_pos (by simp [hic]),
        ih ht]

/-! Structural lemmas about the seller-side feed walk. -/

theorem seller_go_perm (ws : List Watch) :
    ∀ ids s rem, Seller.create_stocksGo ws ids = .ok (s, rem) →
      ((s.map Seller.Stock.offer_id) ++ rem).Perm ids := by
  induction ws with
  | nil =>
    intro ids s rem h
    simp only [Seller.create_stocksGo, Except.ok.injEq, Prod.mk.injEq] at h
    rw [← h.1, ← h.2]
    simp
  | cons w ws ih =>
    intro ids s rem h
    simp only [Seller.create_stocksGo] at h
    by_cases hc : w.code ∈ ids
    · rw [if_pos hc] at h
      cases hcl : classify w.quantity with
      | error e => rw [hcl] at h; exact absurd h (by simp)
      | ok st =>
        rw [hcl] at h
        cases hgo : Seller.create_stocksGo ws (ids.erase w.code) with
        | error e => rw [hgo] at h; exact absurd h (by simp)
        | ok pr =>
          obtain ⟨s', rem'⟩ := pr
          rw [hgo] at h
          simp only [Except.ok.injEq, Prod.mk.injEq] at h
          rw [← h.1, ← h.2]
          have hper := ih (ids.erase w.code) s' rem' hgo
          refine List.Perm.trans ?_ (List.perm_cons_erase hc).symm
          simp only [List.map_cons, List.cons_append]
          exact hper.cons w.code
    · rw [if_neg hc] at h
      exact ih ids s rem h

theorem seller_go_rem (ws : List Watch) :
    ∀ ids s rem, ids.Nodup → Seller.create_stocksGo ws ids = .ok (s, rem) →
      rem = ids.filter (fun i => i ∉ ws.map Watch.code) := by
  induction ws with
  | nil =>
    intro ids s rem _ h
    simp only [Seller.create_stocksGo, Except.ok.injEq, Prod.mk.injEq] at h
    rw [← h.2]
    simp
  | cons w ws ih =>
    intro ids s rem hnd h
    simp only [Seller.create_stocksGo] at h
    by_cases hc : w.code ∈ ids
    · rw [if_pos hc] at h
      cases hcl : classify w.quantity with
      | error e => rw [hcl] at h; exact absurd h (by simp)
      | ok st =>
        rw [hcl] at h
        cases hgo : Seller.create_stocksGo ws (ids.erase w.code) with
        | error e => rw [hgo] at h; exact absurd h (by simp)
        | ok pr =>
          obtain ⟨s', rem'⟩ := pr
          rw [hgo] at h
          simp only [Except.ok.injEq, Prod.mk.injEq] at h
          have hrem := ih (ids.erase w.code) s' rem' (hnd.erase w.code) hgo
          rw [← h.2, hrem, nodup_erase_eq_filter w.code ids hnd, List.filter_filter]
          apply List.filter_congr
          intro i _
          by_cases h1 : i = w.code
          · subst h1
            simp
          · by_cases h2 : i ∈ ws.map Watch.code
            · simp [h1, h2]
            · simp [h1, h2]
    · rw [if_neg hc] at h
      have hrem := ih ids s rem hnd h
      rw [hrem]
      apply List.filter_congr
      intro i hi
      have h1 : i ≠ w.code := fun he => hc (he ▸ hi)
      simp [h1]

theorem seller_go_sublist (ws : List Watch) :
    ∀ ids s rem, Seller.create_stocksGo ws ids = .ok (s, rem) →
      (s.map Seller.Stock.offer_id).Sublist (ws.map Watch.code) := by
  induction ws with
  | nil =>
    intro ids s rem h
    simp only [Seller.create_stocksGo, Except.ok.injEq, Prod.mk.injEq] at h
    rw [← h.1]
    simp
  | cons w ws ih =>
    intro ids s rem h
    simp only [Seller.create_stocksGo] at h
    by_cases hc : w.code ∈ ids
    · rw [if_pos hc] at h
      cases hcl : classify w.quantity with
      | error e => rw [hcl] at h; exact absurd h (by simp)
      | ok st =>
        rw [hcl] at h
        cases hgo : Seller.create_stocksGo ws (ids.erase w.code) with
        | error e => rw [hgo] at h; exact absurd h (by simp)
        | ok pr =>
          obtain ⟨s', rem'⟩ := pr
          rw [hgo] at h
          simp only [Except.ok.injEq, Prod.mk.injEq] at h
          rw [← h.1]
          simp only [List.map_cons]
          exact (ih (ids.erase w.code) s' rem' hgo).cons₂ w.code
    · rw [if_neg hc] at h
      exact (ih ids s rem h).cons w.code

theorem seller_go_counts (ws : List Watch) :
    ∀ ids s rem, Seller.create_stocksGo ws ids = .ok (s, rem) →
      ∀ st ∈ s, ∃ w ∈ ws, w.code = st.offer_id ∧ classify w.quantity = .ok st.stock := by
  induction ws with
  | nil =>
    intro ids s rem h
    simp only [Seller.create_stocksGo, Except.ok.injEq, Prod.mk.injEq] at h
    rw [← h.1]
    simp
  | cons w ws ih =>
    intro ids s rem h
    simp only [Seller.create_stocksGo] at h
    by_cases hc : w.code ∈ ids
    · rw [if_pos hc] at h
      cases hcl : classify w.quantity with
      | error e => rw [hcl] at h; exact absurd h (by simp)
      | ok st =>
        rw [hcl] at h
        cases hgo : Seller.create_stocksGo ws (ids.erase w.code) with
        | error e => rw [hgo] at h; exact absurd h (by simp)
        | ok pr =>
          obtain ⟨s', rem'⟩ := pr
          rw [hgo] at h
          simp only [Except.ok.injEq, Prod.mk.injEq] at h
          rw [← h.1]
          intro u hu
          rcases List.mem_cons.mp hu with hu | hu
          · exact ⟨w, by simp, by rw [hu], by rw [hu, hcl]⟩
          · obtain ⟨w', hw', hcode, hcl'⟩ := ih (ids.erase w.code) s' rem' hgo u hu
            exact ⟨w', by simp [hw'], hcode, hcl'⟩
    · rw [if_neg hc] at h
      intro u hu
      obtain ⟨w', hw', hcode, hcl'⟩ := ih ids s rem h u hu
      exact ⟨w', by simp [hw'], hcode, hcl'⟩

theorem classify_nonneg (q : String) (hq : ∀ n, pyInt q = some n → 0 ≤ n)
    (v : Int) (hv : classify q = .ok v) : 0 ≤ v := by
  unfold classify at hv
  by_cases h1 : q = ">10"
  · rw [if_pos h1] at hv
    simp only [Except.ok.injEq] at hv
    omega
  · rw [if_neg h1] at hv
    by_cases h2 : q = "1"
    · rw [if_pos h2] at hv
      simp only [Except.ok.injEq] at hv
      omega
    · rw [if_neg h2] at hv
      cases hp : pyInt q with
      | none => rw [hp] at hv; exact absurd hv (by simp)
      | some n =>
        rw [hp] at hv
        simp only [Except.ok.injEq] at hv
        rw [← hv]
        exact hq n hp

/-! Lemmas about the seller-side price walk. -/

theorem seller_prices_subset (ws : List Watch) (ids : List String) :
    ∀ p ∈ Seller.create_prices ws ids,
      p.offer_id ∈ ids ∧ p.offer_id ∈ ws.map Watch.code := by
  induction ws with
  | nil => simp [Seller.create_prices]
  | cons w ws ih =>
    intro p hp
    simp only [Seller.create_prices] at hp
    by_cases hc : w.code ∈ ids
    · rw [if_pos hc] at hp
      rcases List.mem_cons.mp hp with hp | hp
      · rw [hp]
        exact ⟨hc, by simp⟩
      · obtain ⟨h1, h2⟩ := ih p hp
        exact ⟨h1, by simp [h2]⟩
    · rw [if_neg hc] at hp
      obtain ⟨h1, h2⟩ := ih p hp
      exact ⟨h1, by simp [h2]⟩

theorem seller_prices_nil (ws : List Watch) :
    ∀ ids, (∀ w ∈ ws, w.code ∉ ids) → Seller.create_prices ws ids = [] := by
  induction ws with
  | nil => intro ids _; rfl
  | cons w ws ih =>
    intro ids h
    simp only [Seller.create_prices, if_neg (h w (by simp))]
    exact ih ids (fun w' hw' => h w' (by simp [hw']))

/-! Lemmas about the market-side walks. -/

theorem market_go_date (warehouse_id date : String) (ws : List Watch) :
    ∀ ids s rem, Market.create_stocksGo warehouse_id date ws ids = .ok (s, rem) →
      ∀ st ∈ s, ∀ it ∈ st.items, it.updatedAt = date := by
  induction ws with
  | nil =>
    intro ids s rem h
    simp only [Market.create_stocksGo, Except.ok.injEq, Prod.mk.injEq] at h
    rw [← h.1]
    simp
  | cons w ws ih =>
    intro ids s rem h
    simp only [Market.create_stocksGo] at h
    by_cases hc : w.code ∈ ids
    · rw [if_pos hc] at h
      cases hcl : classify w.quantity with
      | error e => rw [hcl] at h; exact absurd h (by simp)
      | ok st =>
        rw [hcl] at h
        cases hgo : Market.create_stocksGo warehouse_id date ws (ids.erase w.code) with
        | error e => rw [hgo] at h; exact absurd h (by simp)
        | ok pr =>
          obtain ⟨s', rem'⟩ := pr
          rw [hgo] at h
          simp only [Except.ok.injEq, Prod.mk.injEq] at h
          rw [← h.1]
          intro u hu it hit
          rcases List.mem_cons.mp hu with hu | hu
          · rw [hu] at hit
            simp only [List.mem_singleton] at hit
            rw [hit]
          · exact ih (ids.erase w.code) s' rem' hgo u hu it hit
    · rw [if_neg hc] at h
      exact ih ids s rem h

theorem market_prices_nonneg (ws : List Watch) :
    ∀ ids res, Market.create_prices ws ids = .ok res →
      ∀ p ∈ res, 0 ≤ p.price.value := by
  induction ws with
  | nil =>
    intro ids res h
    simp only [Market.create_prices, Except.ok.injEq] at h
    rw [← h]
    simp
  | cons w ws ih =>
    intro ids res h
    simp only [Market.create_prices] at h
    by_cases hc : w.code ∈ ids
    · rw [if_pos hc] at h
      cases hpi : pyInt (price_conversion w.price) with
      | none => rw [hpi] at h; exact absurd h (by simp)
      | some v =>
        rw [hpi] at h
        cases hrec : Market.create_prices ws ids with
        | error e => rw [hrec] at h; exact absurd h (by simp)
        | ok rest =>
          rw [hrec] at h
          simp only [Except.ok.injEq] at h
          rw [← h]
          intro p hp
          rcases List.mem_cons.mp hp with hp | hp
          · rw [hp]
            exact pyInt_of_digits_nonneg _ (price_conversion_digits w.price) v hpi
          · exact ih ids rest hrec p hp
    · rw [if_neg hc] at h
      exact ih ids res h

/-! Lemmas about the batch partitioner. -/

theorem ceil_div_step (k m : Nat) (hk : 0 < k) (hm : 0 < m) :
    (m + k - 1) / k = (m - k + k - 1) / k + 1 := by
  by_cases hmk : m ≤ k
  · have h1 : m - k = 0 := by omega
    rw [h1]
    have h2 : (0 + k - 1) / k = 0 := Nat.div_eq_of_lt (by omega)
    rw [h2]
    have h3 : m + k - 1 = (m - 1) + k := by omega
    rw [h3, Nat.add_div_right _ hk, Nat.div_eq_of_lt (by omega)]
  · have h3 : m + k - 1 = (m - 1) + k := by omega
    have h4 : m - k + k - 1 = m - 1 := by omega
    rw [h3, h4, Nat.add_div_right _ hk]

theorem pyRange_map_flatten (k : Nat) (hk : 0 < k) (l : List α) (s : Nat) :
    ((pyRange s l.length k).map (fun i => (l.drop i).take k)).flatten = l.drop s := by
  rw [pyRange, dif_neg (by omega)]
  by_cases hs : s < l.length
  · rw [dif_pos hs]
    simp only [List.map_cons, List.flatten_cons]
    rw [pyRange_map_flatten k hk l (s + k)]
    have h1 : l.drop (s + k) = (l.drop s).drop k := by
      rw [List.drop_drop, Nat.add_comm]
    rw [h1, List.take_append_drop]
  · rw [dif_neg hs]
    simp only [List.map_nil, List.flatten_nil]
    rw [List.drop_eq_nil_of_le (by omega)]
termination_by l.length - s
decreasing_by
  simp_wf
  omega

theorem pyRange_length (stop k : Nat) (hk : 0 < k) (start : Nat) :
    (pyRange start stop k).length = (stop - start + k - 1) / k := by
  rw [pyRange, dif_neg (by omega)]
  by_cases hs : start < stop
  · rw [dif_pos hs]
    simp only [List.length_cons]
    rw [pyRange_length stop k hk (start + k)]
    have hm : 0 < stop - start := by omega
    have h1 : stop - (start + k) = stop - start - k := by omega
    rw [h1, ← ceil_div_step k (stop - start) hk hm]
  · rw [dif_neg hs]
    have h0 : stop - start = 0 := by omega
    rw [h0]
    exact (Nat.div_eq_of_lt (by omega)).symm
termination_by stop - start
decreasing_by
  simp_wf
  omega

/-- C1: for every feed and duplicate-free catalog identifier list, the
stock updates returned by `Seller.create_stocks` are exactly one update
per catalog identifier and no others: a block of matched updates whose
identifiers form a sublist of the feed codes (feed order) and carry the
classified count, followed by zero-count updates for exactly the catalog
identifiers absent from the feed, in remaining-catalog order; the
identifiers of the whole list are a permutation of the catalog list and
are duplicate-free. -/
theorem claim1_stock_reconciliation_exact (ws : List Watch) (ids : List String)
    (stocks : List Seller.Stock) (rem : List String)
    (hnd : ids.Nodup) (h : Seller.create_stocks ws ids = .ok (stocks, rem)) :
    ∃ matched : List Seller.Stock,
      stocks = matched ++ rem.map (fun i => { offer_id := i, stock := 0 }) ∧
      (matched.map Seller.Stock.offer_id).Sublist (ws.map Watch.code) ∧
      (∀ st ∈ matched, ∃ w ∈ ws, w.code = st.offer_id ∧
        classify w.quantity = .ok st.stock) ∧
      rem = ids.filter (fun i => i ∉ ws.map Watch.code) ∧
      (stocks.map Seller.Stock.offer_id).Perm ids ∧
      (stocks.map Seller.Stock.offer_id).Nodup := by
  unfold Seller.create_stocks at h
  cases hgo : Seller.create_stocksGo ws ids with
  | error e => rw [hgo] at h; exact absurd h (by simp)
  | ok pr =>
    obtain ⟨m, r⟩ := pr
    rw [hgo] at h
    simp only [Except.ok.injEq, Prod.mk.injEq] at h
    obtain ⟨hst, hrem⟩ := h
    subst hrem
    subst hst
    have hper := seller_go_perm ws ids m r hgo
    have hmap : (m ++ r.map
          (fun i => ({ offer_id := i, stock := 0 } : Seller.Stock))).map
          Seller.Stock.offer_id = m.map Seller.Stock.offer_id ++ r := by
      rw [List.map_append, List.map_map]
      congr 1
      exact List.map_id r
    refine ⟨m, rfl, seller_go_sublist ws ids m r hgo,
      seller_go_counts ws ids m r hgo, seller_go_rem ws ids m r hnd hgo, ?_, ?_⟩
    · rw [hmap]
      exact hper
    · rw [hmap]
      exact hper.symm.nodup hnd

/-- Witness for C1 at a concrete feed and catalog. -/
theorem claim1_witness :
    ([({ offer_id := "48852", stock := 3 } : Seller.Stock),
      { offer_id := "99999", stock := 0 }].map Seller.Stock.offer_id).Perm
      ["48852", "99999"] := by
  obtain ⟨m, hm⟩ := claim1_stock_reconciliation_exact
    [{ code := "48852", quantity := "3", price := "24570" }] ["48852", "99999"]
    [{ offer_id := "48852", stock := 3 }, { offer_id := "99999", stock := 0 }]
    ["99999"] (by decide) (by rfl)
  exact hm.2.2.2.2.1

/-- C2 as stated is false: the classifier returns 100 and 0 on inputs
other than the literals `">10"` and `"1"`. -/
theorem claim2_counterexample :
    classify "100" = .ok 100 ∧ "100" ≠ ">10" ∧ classify "0" = .ok 0 ∧ "0" ≠ "1" :=
  ⟨rfl, by decide, rfl, by decide⟩

/-- C2 (amended): the classifier rules hold in priority order: `">10"`
maps to 100, otherwise `"1"` maps to 0, otherwise the token's integer
value is returned, and the classifier fails exactly when the token is
neither literal and is not integer-parseable. -/
theorem claim2_classifier_priority (t : String) :
    (t = ">10" → classify t = .ok 100) ∧
    (t ≠ ">10" → t = "1" → classify t = .ok 0) ∧
    (t ≠ ">10" → t ≠ "1" → ∀ n, pyInt t = some n → classify t = .ok n) ∧
    (t ≠ ">10" → t ≠ "1" → pyInt t = none → classify t = .error .valueError) := by
  refine ⟨?_, ?_, ?_, ?_⟩
  · intro h
    simp [classify, h]
  · intro h1 h2
    simp [classify, h1, h2]
  · intro h1 h2 n hn
    simp [classify, h1, h2, hn]
  · intro h1 h2 hn
    simp [classify, h1, h2, hn]

/-- Witness for C2 (amended) at concrete tokens. -/
theorem claim2_witness :
    classify ">10" = .ok 100 ∧ classify "1" = .ok 0 ∧
    classify "7" = .ok 7 ∧ classify "x" = .error .valueError :=
  ⟨(claim2_classifier_priority ">10").1 rfl,
   (claim2_classifier_priority "1").2.1 (by decide) rfl,
   (claim2_classifier_priority "7").2.2.1 (by decide) (by decide) 7 rfl,
   (claim2_classifier_priority "x").2.2.2 (by decide) (by decide) rfl⟩

/-- C3: `price_conversion` keeps exactly the ASCII digits of the prefix
before the first dot, and on the documented examples the resulting
integers are 5990 and 599000 (the comma is not a fractional separator). -/
theorem claim3_price_normalizer :
    (∀ p : String, price_conversion p =
      String.mk ((p.toList.takeWhile (fun c => c ≠ '.')).filter Char.isDigit)) ∧
    price_conversion ("5" ++ "\x27" ++ "990.00 руб.") = "5990" ∧
    price_conversion ("5" ++ "\x27" ++ "990,00 руб.") = "599000" ∧
    normalizePrice ("5" ++ "\x27" ++ "990.00 руб.") = some 5990 ∧
    normalizePrice ("5" ++ "\x27" ++ "990,00 руб.") = some 599000 :=
  ⟨fun _ => rfl, rfl, rfl, rfl, rfl⟩

/-- C4 as stated is false: `create_prices` removes nothing from
`offer_ids`, so a feed with duplicate codes matched by the catalog emits
the same identifier twice in the price-update list. -/
theorem claim4_counterexample :
    (Seller.create_prices
        [{ code := "a", quantity := "3", price := "5.0" },
         { code := "a", quantity := "3", price := "5.0" }] ["a"]).map
      Seller.Price.offer_id = ["a", "a"] ∧
    ¬ ((Seller.create_prices
        [{ code := "a", quantity := "3", price := "5.0" },
         { code := "a", quantity := "3", price := "5.0" }] ["a"]).map
      Seller.Price.offer_id).Nodup :=
  ⟨rfl, by decide⟩

/-- C4 (amended): every identifier in the price-update list is both a
member of the catalog list and a code occurring in the feed; with
duplicate feed codes the identifier may however repeat, one update per
matching feed record. -/
theorem claim4_price_subset (ws : List Watch) (ids : List String)
    (p : Seller.Price) (hp : p ∈ Seller.create_prices ws ids) :
    p.offer_id ∈ ids ∧ p.offer_id ∈ ws.map Watch.code :=
  seller_prices_subset ws ids p hp

/-- Witness for C4 (amended) at a concrete feed and catalog. -/
theorem claim4_witness :
    (({ auto_action_enabled := "UNKNOWN", currency_code := "RUB", offer_id := "a",
        old_price := "0", price := "5" } : Seller.Price).offer_id ∈ ["a"]) ∧
    (({ auto_action_enabled := "UNKNOWN", currency_code := "RUB", offer_id := "a",
        old_price := "0", price := "5" } : Seller.Price).offer_id ∈
      [({ code := "a", quantity := "3", price := "5.0" } : Watch)].map Watch.code) :=
  claim4_price_subset [{ code := "a", quantity := "3", price := "5.0" }] ["a"]
    { auto_action_enabled := "UNKNOWN", currency_code := "RUB", offer_id := "a",
      old_price := "0", price := "5" } (by decide)

/-- C5 as stated is false for the seller pipeline: on a catalog-matched
record whose price strips to the empty string, `price_conversion` does
not raise, and `Seller.create_prices` emits a price update whose price is
the empty string instead of failing. -/
theorem claim5_counterexample :
    price_conversion "руб" = "" ∧
    Seller.create_prices [{ code := "a", quantity := "3", price := "руб" }] ["a"] =
      [{ auto_action_enabled := "UNKNOWN", currency_code := "RUB", offer_id := "a",
         old_price := "0", price := "" }] :=
  ⟨rfl, rfl⟩

/-- C5 (amended): `price_conversion` itself never raises; the market
pipeline's `int(...)` conversion makes `Market.create_prices` fail (with
`ValueError`) exactly when some catalog-matched feed record's price
strips to the empty string, while the seller pipeline emits the update
with an empty price string. -/
theorem claim5_market_price_failure (ws : List Watch) (ids : List String) :
    (∃ e, Market.create_prices ws ids = .error e) ↔
      ∃ w, w ∈ ws ∧ w.code ∈ ids ∧ price_conversion w.price = "" := by
  induction ws with
  | nil => simp [Market.create_prices]
  | cons w ws ih =>
    simp only [Market.create_prices]
    by_cases hc : w.code ∈ ids
    · rw [if_pos hc]
      by_cases hpc : price_conversion w.price = ""
      · have hnone : pyInt (price_conversion w.price) = none := by
          rw [hpc]
          rfl
        rw [hnone]
        constructor
        · intro _
          exact ⟨w, by simp, hc, hpc⟩
        · intro _
          exact ⟨.valueError, rfl⟩
      · have hne : (price_conversion w.price).toList ≠ [] := by
          intro hnil
          exact hpc ((string_eq_empty_iff _).mpr hnil)
        obtain ⟨v, hv⟩ := pyInt_of_digits_some _ (price_conversion_digits w.price) hne
        rw [hv]
        cases hrec : Market.create_prices ws ids with
        | error e =>
          constructor
          · intro _
            obtain ⟨w', hw', hcw', hpw'⟩ := ih.mp ⟨e, hrec⟩
            exact ⟨w', by simp [hw'], hcw', hpw'⟩
          · intro _
            exact ⟨e, rfl⟩
        | ok rest =>
          constructor
          · rintro ⟨e, he⟩
            exact Except.noConfusion he
          · rintro ⟨w', hw', hcw', hpw'⟩
            rcases List.mem_cons.mp hw' with hw' | hw'
            · subst hw'
              exact absurd hpw' hpc
            · obtain ⟨e, he⟩ := ih.mpr ⟨w', hw', hcw', hpw'⟩
              rw [he] at hrec
              exact Except.noConfusion hrec
    · rw [if_neg hc]
      constructor
      · intro he
        obtain ⟨w', hw', hcw', hpw'⟩ := ih.mp he
        exact ⟨w', by simp [hw'], hcw', hpw'⟩
      · rintro ⟨w', hw', hcw', hpw'⟩
        rcases List.mem_cons.mp hw' with hw' | hw'
        · subst hw'
          exact absurd hcw' hc
        · exact ih.mpr ⟨w', hw', hcw', hpw'⟩

/-- C6: for a positive batch size the partition concatenates back to the
input, every batch length is bounded by the size, exactly
ceil(length / size) batches are produced, and the empty list yields no
batches. -/
theorem claim6_partition {α : Type} (l : List α) (n : Int) (hn : 0 < n) :
    ∃ bs, divide l n = .ok bs ∧
      bs.flatten = l ∧
      (∀ b ∈ bs, b.length ≤ n.toNat) ∧
      bs.length = (l.length + n.toNat - 1) / n.toNat ∧
      (l = [] → bs = []) := by
  have hk : 0 < n.toNat := by omega
  refine ⟨(pyRange 0 l.length n.toNat).map (fun i => (l.drop i).take n.toNat),
    ?_, ?_, ?_, ?_, ?_⟩
  · unfold divide
    rw [if_neg (by omega), if_neg (by omega)]
  · have hj := pyRange_map_flatten n.toNat hk l 0
    rw [List.drop_zero] at hj
    exact hj
  · intro b hb
    obtain ⟨i, _, hbi⟩ := List.mem_map.mp hb
    rw [← hbi, List.length_take]
    exact min_le_left _ _
  · rw [List.length_map, pyRange_length l.length n.toNat hk 0, Nat.sub_zero]
  · intro hl
    subst hl
    rw [List.length_nil, pyRange, dif_neg (by omega), dif_neg (by omega)]
    rfl

/-- Witness for C6 at a concrete list and batch size. -/
theorem claim6_witness :
    ∃ bs, divide ([1, 2, 3] : List Int) 2 = .ok bs ∧
      bs.flatten = [1, 2, 3] ∧
      (∀ b ∈ bs, b.length ≤ (2 : Int).toNat) ∧
      bs.length = (([1, 2, 3] : List Int).length + (2 : Int).toNat - 1) / (2 : Int).toNat ∧
      (([1, 2, 3] : List Int) = [] → bs = []) :=
  claim6_partition [1, 2, 3] 2 (by decide)

/-- C7 as stated is false: with a negative batch size `divide` does not
fail, it silently yields zero batches, because `range(0, len(lst), n)`
is empty for negative `n`. -/
theorem claim7_counterexample :
    divide ([1, 2, 3] : List Int) (-1) = .ok [] := rfl

/-- C7 (amended): a zero batch size fails (the `ValueError` raised by
`range`), while a negative batch size silently returns zero batches. -/
theorem claim7_nonpositive_batch {α : Type} (l : List α) (n : Int) (hn : n ≤ 0) :
    (n = 0 → divide l n = .error .valueError) ∧
    (n < 0 → divide l n = .ok []) := by
  constructor
  · intro h0
    unfold divide
    rw [if_pos h0]
  · intro hneg
    unfold divide
    rw [if_neg (by omega), if_pos hneg]

/-- Witness for C7 (amended) at concrete batch sizes. -/
theorem claim7_witness :
    divide ([1] : List Int) 0 = .error .valueError ∧
    divide ([1] : List Int) (-1) = .ok [] :=
  ⟨(claim7_nonpositive_batch [1] 0 (by decide)).1 rfl,
   (claim7_nonpositive_batch [1] (-1) (by decide)).2 (by decide)⟩

/-- C8 as stated is false: a catalog-matched feed record with a negative
quantity token is classified without error to a negative stock count. -/
theorem claim8_counterexample :
    Seller.create_stocks [{ code := "a", quantity := "-5", price := "p" }] ["a"] =
      .ok ([{ offer_id := "a", stock := -5 }], []) ∧ (-5 : Int) < 0 :=
  ⟨rfl, by decide⟩

/-- C8 (amended): every market price value is nonnegative, because the
converted price is a digit-only string; stock counts are nonnegative
provided every feed quantity token that parses as an integer parses to a
nonnegative one (the two literal rules and the zeroed unmatched items are
always nonnegative). -/
theorem claim8_nonnegative (ws : List Watch) (ids : List String) :
    (∀ res, Market.create_prices ws ids = .ok res → ∀ p ∈ res, 0 ≤ p.price.value) ∧
    (∀ stocks rem, (∀ w ∈ ws, ∀ n, pyInt w.quantity = some n → 0 ≤ n) →
      Seller.create_stocks ws ids = .ok (stocks, rem) → ∀ st ∈ stocks, 0 ≤ st.stock) := by
  constructor
  · intro res h
    exact market_prices_nonneg ws ids res h
  · intro stocks rem hq h st hst
    unfold Seller.create_stocks at h
    cases hgo : Seller.create_stocksGo ws ids with
    | error e => rw [hgo] at h; exact absurd h (by simp)
    | ok pr =>
      obtain ⟨m, r⟩ := pr
      rw [hgo] at h
      simp only [Except.ok.injEq, Prod.mk.injEq] at h
      obtain ⟨hst', _⟩ := h
      rw [← hst'] at hst
      rcases List.mem_append.mp hst with hm | hz
      · obtain ⟨w, hw, _, hcl⟩ := seller_go_counts ws ids m r hgo st hm
        exact classify_nonneg w.quantity (hq w hw) st.stock hcl
      · obtain ⟨i, _, hi⟩ := List.mem_map.mp hz
        rw [← hi]

/-- Witness for C8 (amended) at concrete inputs. -/
theorem claim8_witness :
    (0 ≤ ({ id := "a", price := { value := 5, currencyId := "RUR" } } :
      Market.Price).price.value) ∧
    (0 ≤ ({ offer_id := "a", stock := 3 } : Seller.Stock).stock) :=
  ⟨(claim8_nonnegative [{ code := "a", quantity := "3", price := "5.0" }] ["a"]).1
      [{ id := "a", price := { value := 5, currencyId := "RUR" } }] rfl
      { id := "a", price := { value := 5, currencyId := "RUR" } } (by decide),
   (claim8_nonnegative [{ code := "a", quantity := "3", price := "5.0" }] ["a"]).2
      [{ offer_id := "a", stock := 3 }] []
      (by
        intro w hw n hn
        simp only [List.mem_singleton] at hw
        subst hw
        have hn' : pyInt "3" = some n := hn
        have h3 : pyInt "3" = some 3 := rfl
        rw [h3] at hn'
        injection hn' with he
        omega)
      rfl { offer_id := "a", stock := 3 } (by decide)⟩

/-- C9: every stock update produced in one market reconciliation pass,
matched and zeroed alike, carries the single timestamp captured before
the feed walk. -/
theorem claim9_shared_timestamp (date warehouse_id : String) (ws : List Watch)
    (ids : List String) (stocks : List Market.Stock) (rem : List String)
    (h : Market.create_stocks date ws ids warehouse_id = .ok (stocks, rem)) :
    ∀ st ∈ stocks, ∀ it ∈ st.items, it.updatedAt = date := by
  unfold Market.create_stocks at h
  cases hgo : Market.create_stocksGo warehouse_id date ws ids with
  | error e => rw [hgo] at h; exact absurd h (by simp)
  | ok pr =>
    obtain ⟨m, r⟩ := pr
    rw [hgo] at h
    simp only [Except.ok.injEq, Prod.mk.injEq] at h
    obtain ⟨hst, _⟩ := h
    intro st hstm it hit
    rw [← hst] at hstm
    rcases List.mem_append.mp hstm with hm | hz
    · exact market_go_date warehouse_id date ws ids m r hgo st hm it hit
    · obtain ⟨i, _, hi⟩ := List.mem_map.mp hz
      rw [← hi] at hit
      simp only [List.mem_singleton] at hit
      rw [hit]

/-- Witness for C9 at a concrete pass with one matched and one zeroed
item. -/
theorem claim9_witness :
    ({ count := 0, type := "FIT", updatedAt := "T0" } : Market.StockItem).updatedAt
      = "T0" :=
  claim9_shared_timestamp "T0" "WH" [{ code := "a", quantity := ">10", price := "p" }]
    ["a", "b"]
    [{ sku := "a", warehouseId := "WH",
       items := [{ count := 100, type := "FIT", updatedAt := "T0" }] },
     { sku := "b", warehouseId := "WH",
       items := [{ count := 0, type := "FIT", updatedAt := "T0" }] }]
    ["b"] rfl
    { sku := "b", warehouseId := "WH",
      items := [{ count := 0, type := "FIT", updatedAt := "T0" }] } (by decide)
    { count := 0, type := "FIT", updatedAt := "T0" } (by decide)

/-- C10: seller `create_stocks` consumes the catalog list in place:
afterwards `offer_ids` holds exactly the catalog identifiers occurring in
no feed record, so `create_prices`, called next on the same mutated list
as `main` does, emits nothing. -/
theorem claim10_mutation_starves_prices (ws : List Watch) (ids : List String)
    (stocks : List Seller.Stock) (rem : List String) (hnd : ids.Nodup)
    (h : Seller.create_stocks ws ids = .ok (stocks, rem)) :
    rem = ids.filter (fun i => i ∉ ws.map Watch.code) ∧
    Seller.create_prices ws rem = [] := by
  unfold Seller.create_stocks at h
  cases hgo : Seller.create_stocksGo ws ids with
  | error e => rw [hgo] at h; exact absurd h (by simp)
  | ok pr =>
    obtain ⟨m, r⟩ := pr
    rw [hgo] at h
    simp only [Except.ok.injEq, Prod.mk.injEq] at h
    obtain ⟨_, hrem⟩ := h
    subst hrem
    have hr := seller_go_rem ws ids m r hnd hgo
    refine ⟨hr, ?_⟩
    apply seller_prices_nil
    intro w hw hmem
    rw [hr] at hmem
    have hpred := List.of_mem_filter hmem
    simp only [decide_eq_true_eq] at hpred
    exact hpred (List.mem_map.mpr ⟨w, hw, rfl⟩)

/-- Witness for C10 at a concrete feed and catalog. -/
theorem claim10_witness :
    ["99999"] = ["48852", "99999"].filter
      (fun i => i ∉
        [({ code := "48852", quantity := "3", price := "p" } : Watch)].map Watch.code) ∧
    Seller.create_prices [{ code := "48852", quantity := "3", price := "p" }]
      ["99999"] = [] :=
  claim10_mutation_starves_prices
    [{ code := "48852", quantity := "3", price := "p" }] ["48852", "99999"]
    [{ offer_id := "48852", stock := 3 }, { offer_id := "99999", stock := 0 }]
    ["99999"] (by decide) rfl
